import Mathlib

/-!
Verification of the prioritized-experience-replay core of the
`learningALE` repository: the unbalanced binary search tree used as a
max-priority queue (`handlers/binarysearch.py`) and the prioritized
experience store built on top of it
(`handlers/prioritizedexperiencehandler.py`).

Priorities are Python floats (with `np.inf` as a sentinel); they are
modelled as `WithTop ℚ`, with `⊤` standing for `np.inf`.  Python's
integers are modelled as `ℤ`.  Fallible operations (list indexing that
can raise `IndexError`, popping an empty tree, which raises
`AttributeError`) return `Option`, with `none` standing for a raised
exception.
-/

namespace LearningALE

/-- Priorities are floats in the source; `np.inf` is the top element. -/
abbrev Priority := WithTop ℚ

/-- The `Node` class of `binarysearch.py`: a value (priority), the
`extra_vals` payload, and optional `left` / `right` children.  `nil`
plays the role of Python `None`, so this type simultaneously models
`BinaryTree` (whose `root` is an optional `Node`).  The payload type is
generic because the tree code never inspects `extra_vals`; the store
instantiates it with buffer indices. -/
inductive Tree (α : Type) where
  | nil : Tree α
  | node (value : Priority) (extra : α) (left : Tree α) (right : Tree α) : Tree α
deriving DecidableEq

namespace Tree

variable {α : Type}

/-- `Node.insert` (and `BinaryTree.insert`, whose `None` root is `nil`):
`new_val >= self.value` descends right, otherwise left; a missing child
becomes a fresh leaf node. -/
def insert : Tree α → Priority → α → Tree α
  | nil, new_val, extra_vals => node new_val extra_vals nil nil
  | node value extra l r, new_val, extra_vals =>
    if value ≤ new_val then node value extra l (r.insert new_val extra_vals)
    else node value extra (l.insert new_val extra_vals) r

/-- `Node.pop_max` together with the root handling of
`BinaryTree.pop_max`: descend the rightmost path; the rightmost node is
detached and its left subtree (`hanging_left`) is spliced into its
parent's right slot (the `term` flag of the source), or becomes the new
root when the root itself is removed.  `none` models the
`AttributeError` raised when the tree is empty. -/
def pop_max : Tree α → Option (Priority × α × Tree α)
  | nil => none
  | node value extra l r =>
    match r.pop_max with
    | none => some (value, extra, l)
    | some (rv, re, r') => some (rv, re, node value extra l r')

/-- In-order traversal of the tree's (priority, payload) pairs. -/
def inorder : Tree α → List (Priority × α)
  | nil => []
  | node v e l r => inorder l ++ (v, e) :: inorder r

/-- The multiset of (priority, payload) entries held by the tree. -/
def entries (t : Tree α) : Multiset (Priority × α) := ↑(inorder t)

/-- The multiset of priorities held by the tree. -/
def prios (t : Tree α) : Multiset Priority := (entries t).map Prod.fst

/-- The claimed splice: the rightmost node is replaced by its own left
subtree (spliced into the parent's right slot, or made the root). -/
def spliceMax : Tree α → Tree α
  | nil => nil
  | node _ _ l nil => l
  | node v e l (node rv re rl rr) => node v e l (spliceMax (node rv re rl rr))

/-- The binary-search-tree ordering invariant as the spec states it:
left subtree ≤ node priority, right subtree ≥ node priority. -/
def IsBST : Tree α → Prop
  | nil => True
  | node v _ l r =>
      (∀ x ∈ entries l, x.1 ≤ v) ∧ (∀ x ∈ entries r, v ≤ x.1) ∧ IsBST l ∧ IsBST r

theorem entries_nil : entries (nil : Tree α) = 0 := rfl

theorem entries_node (v : Priority) (e : α) (l r : Tree α) :
    entries (node v e l r) = entries l + ((v, e) ::ₘ entries r) := by
  simp [entries, inorder]

theorem entries_insert (t : Tree α) (v : Priority) (e : α) :
    entries (t.insert v e) = (v, e) ::ₘ entries t := by
  induction t with
  | nil => simp [insert, entries, inorder]
  | node value extra l r ihl ihr =>
    by_cases h : value ≤ v
    · simp only [insert, if_pos h, entries_node, ihr]
      simp [Multiset.add_cons, Multiset.cons_swap]
    · simp only [insert, if_neg h, entries_node, ihl, Multiset.cons_add]

theorem pop_max_eq_none_iff (t : Tree α) : t.pop_max = none ↔ t = nil := by
  cases t with
  | nil => simp [pop_max]
  | node value extra l r =>
    cases hr : r.pop_max with
    | none => simp [pop_max, hr]
    | some x =>
      obtain ⟨rv, re, r'⟩ := x
      simp [pop_max, hr]

theorem pop_max_inorder (t : Tree α) :
    ∀ v e t', t.pop_max = some (v, e, t') → inorder t = inorder t' ++ [(v, e)] := by
  induction t with
  | nil => intro v e t' h; simp [pop_max] at h
  | node value extra l r ihl ihr =>
    intro v e t' h
    cases hr : r.pop_max with
    | none =>
      have hrnil : r = nil := (pop_max_eq_none_iff r).mp hr
      subst hrnil
      simp [pop_max] at h
      obtain ⟨rfl, rfl, rfl⟩ := h
      simp [inorder]
    | some x =>
      obtain ⟨rv, re, r'⟩ := x
      simp [pop_max, hr] at h
      obtain ⟨rfl, rfl, rfl⟩ := h
      simp [inorder, ihr _ _ _ hr]

theorem pop_max_entries (t : Tree α) (v : Priority) (e : α) (t' : Tree α)
    (h : t.pop_max = some (v, e, t')) : entries t = (v, e) ::ₘ entries t' := by
  have h2 := pop_max_inorder t v e t' h
  simp [entries, h2]

theorem pop_max_mem_entries (t : Tree α) (v : Priority) (e : α) (t' : Tree α)
    (h : t.pop_max = some (v, e, t')) : (v, e) ∈ entries t := by
  rw [pop_max_entries t v e t' h]; exact Multiset.mem_cons_self _ _

theorem pop_max_entries_subset (t : Tree α) (v : Priority) (e : α) (t' : Tree α)
    (h : t.pop_max = some (v, e, t')) : ∀ x ∈ entries t', x ∈ entries t := by
  intro x hx
  rw [pop_max_entries t v e t' h]
  exact Multiset.mem_cons_of_mem hx

theorem pop_max_isSome (t : Tree α) (h : t ≠ nil) :
    ∃ v e t', t.pop_max = some (v, e, t') := by
  cases t with
  | nil => exact absurd rfl h
  | node value extra l r =>
    cases hr : r.pop_max with
    | none => exact ⟨value, extra, l, by simp [pop_max, hr]⟩
    | some x =>
      obtain ⟨rv, re, r'⟩ := x
      exact ⟨rv, re, node value extra l r', by simp [pop_max, hr]⟩

theorem pop_max_spliceMax (t : Tree α) :
    ∀ v e t', t.pop_max = some (v, e, t') → t' = spliceMax t := by
  induction t with
  | nil => intro v e t' h; simp [pop_max] at h
  | node value extra l r ihl ihr =>
    intro v e t' h
    cases hr : r.pop_max with
    | none =>
      have hrnil : r = nil := (pop_max_eq_none_iff r).mp hr
      subst hrnil
      simp [pop_max] at h
      obtain ⟨rfl, rfl, rfl⟩ := h
      rfl
    | some x =>
      obtain ⟨pv, pe, r'⟩ := x
      simp [pop_max, hr] at h
      obtain ⟨rfl, rfl, rfl⟩ := h
      cases r with
      | nil => simp [pop_max] at hr
      | node rv re rl rr =>
        rw [spliceMax, ihr _ _ _ hr]

theorem insert_isBST (t : Tree α) (v : Priority) (e : α) (h : IsBST t) :
    IsBST (t.insert v e) := by
  induction t with
  | nil => simp [insert, IsBST, entries, inorder]
  | node value extra l r ihl ihr =>
    obtain ⟨hl, hr, hbl, hbr⟩ := h
    by_cases hv : value ≤ v
    · rw [insert, if_pos hv]
      refine ⟨hl, ?_, hbl, ihr hbr⟩
      intro x hx
      rw [entries_insert] at hx
      rcases Multiset.mem_cons.mp hx with h1 | h2
      · subst h1; exact hv
      · exact hr x h2
    · rw [insert, if_neg hv]
      refine ⟨?_, hr, ihl hbl, hbr⟩
      intro x hx
      rw [entries_insert] at hx
      rcases Multiset.mem_cons.mp hx with h1 | h2
      · subst h1; exact le_of_not_le hv
      · exact hl x h2

theorem pop_max_isBST (t : Tree α) :
    ∀ v e t', IsBST t → t.pop_max = some (v, e, t') → IsBST t' := by
  induction t with
  | nil => intro v e t' _ h; simp [pop_max] at h
  | node value extra l r ihl ihr =>
    intro v e t' hb h
    obtain ⟨hl, hr, hbl, hbr⟩ := hb
    cases hpr : r.pop_max with
    | none =>
      have hrnil : r = nil := (pop_max_eq_none_iff r).mp hpr
      subst hrnil
      simp [pop_max] at h
      obtain ⟨rfl, rfl, rfl⟩ := h
      exact hbl
    | some x =>
      obtain ⟨rv, re, r'⟩ := x
      simp [pop_max, hpr] at h
      obtain ⟨rfl, rfl, rfl⟩ := h
      refine ⟨hl, ?_, hbl, ihr _ _ _ hbr hpr⟩
      intro x hx
      exact hr x (pop_max_entries_subset r _ _ r' hpr x hx)

theorem pop_max_is_max (t : Tree α) :
    ∀ v e t', IsBST t → t.pop_max = some (v, e, t') → ∀ p ∈ prios t, p ≤ v := by
  induction t with
  | nil => intro v e t' _ h; simp [pop_max] at h
  | node value extra l r ihl ihr =>
    intro v e t' hb h p hp
    obtain ⟨hl, hr, hbl, hbr⟩ := hb
    obtain ⟨x, hx, rfl⟩ := Multiset.mem_map.mp hp
    rw [entries_node] at hx
    cases hpr : r.pop_max with
    | none =>
      have hrnil : r = nil := (pop_max_eq_none_iff r).mp hpr
      subst hrnil
      simp [pop_max] at h
      obtain ⟨rfl, rfl, rfl⟩ := h
      rcases Multiset.mem_add.mp hx with h1 | h2
      · exact hl x h1
      · rcases Multiset.mem_cons.mp h2 with h3 | h4
        · subst h3; exact le_refl _
        · simp [entries, inorder] at h4
    | some y =>
      obtain ⟨rv, re, r'⟩ := y
      simp [pop_max, hpr] at h
      obtain ⟨rfl, rfl, rfl⟩ := h
      have hvle : value ≤ rv := by
        have hm := pop_max_mem_entries r _ _ r' hpr
        exact hr _ hm
      rcases Multiset.mem_add.mp hx with h1 | h2
      · exact le_trans (hl x h1) hvle
      · rcases Multiset.mem_cons.mp h2 with h3 | h4
        · subst h3; exact hvle
        · exact ihr _ _ _ hbr hpr _ (Multiset.mem_map_of_mem Prod.fst h4)

/-- A tree built by a sequence of `insert` calls starting from the empty
tree (the state of a fresh `BinaryTree`). -/
def build (l : List (Priority × ℤ)) : Tree ℤ :=
  l.foldl (fun t pe => t.insert pe.1 pe.2) nil

theorem build_isBST (l : List (Priority × ℤ)) : IsBST (build l) := by
  suffices h : ∀ t : Tree ℤ, IsBST t → IsBST (l.foldl (fun t pe => t.insert pe.1 pe.2) t) by
    exact h nil trivial
  induction l with
  | nil => intro t ht; exact ht
  | cons pe rest ih =>
    intro t ht
    exact ih _ (insert_isBST t pe.1 pe.2 ht)

/-- A single operation on the tree, as performed through the
`BinaryTree` interface. -/
inductive TreeOp where
  | ins (p : Priority) (e : ℤ)
  | pop
deriving DecidableEq

/-- Run a sequence of `BinaryTree.insert` / `BinaryTree.pop_max` calls;
`none` models the exception raised by popping an empty tree. -/
def runOps : Tree ℤ → List TreeOp → Option (Tree ℤ)
  | t, [] => some t
  | t, .ins p e :: rest => runOps (t.insert p e) rest
  | t, .pop :: rest =>
    match t.pop_max with
    | some (_, _, t') => runOps t' rest
    | none => none

theorem runOps_isBST (ops : List TreeOp) :
    ∀ t t' : Tree ℤ, IsBST t → runOps t ops = some t' → IsBST t' := by
  induction ops with
  | nil =>
    intro t t' ht h
    simp [runOps] at h
    subst h; exact ht
  | cons op rest ih =>
    intro t t' ht h
    cases op with
    | ins p e =>
      exact ih _ _ (insert_isBST t p e ht) h
    | pop =>
      cases hp : t.pop_max with
      | none => simp [runOps, hp] at h
      | some x =>
        obtain ⟨v, e, t''⟩ := x
        rw [runOps, hp] at h
        exact ih _ _ (pop_max_isBST t _ _ _ ht hp) h

/-- Instrumented run used to express insertion recency: the same
`insert` and `pop_max` (which never inspect the payload), with payloads
carrying (buffer index, insertion timestamp); the timestamp counter
increases at each insert. -/
def runTimed : Tree (ℤ × ℕ) → ℕ → List TreeOp → Option (Tree (ℤ × ℕ) × ℕ)
  | t, c, [] => some (t, c)
  | t, c, .ins p e :: rest => runTimed (t.insert p (e, c)) (c + 1) rest
  | t, c, .pop :: rest =>
    match t.pop_max with
    | some (_, _, t') => runTimed t' c rest
    | none => none

/-- Strengthened tree invariant maintained by the code: the left subtree
is strictly below the node (equal priorities always descend right), and
everything in the right subtree is at least the node's priority, with a
strictly later timestamp in case of equality. -/
def TInv : Tree (ℤ × ℕ) → Prop
  | nil => True
  | node v et l r =>
      (∀ x ∈ entries l, x.1 < v) ∧
      (∀ x ∈ entries r, v ≤ x.1 ∧ (x.1 = v → et.2 < x.2.2)) ∧ TInv l ∧ TInv r

/-- All timestamps in the tree are below the counter. -/
def TimeLt (t : Tree (ℤ × ℕ)) (c : ℕ) : Prop := ∀ x ∈ entries t, x.2.2 < c

theorem timeLt_node (v : Priority) (et : ℤ × ℕ) (l r : Tree (ℤ × ℕ)) (c : ℕ)
    (h : TimeLt (node v et l r) c) : TimeLt l c ∧ TimeLt r c ∧ et.2 < c := by
  refine ⟨fun x hx => h x (by simp [entries_node, hx]),
    fun x hx => h x (by simp [entries_node, Multiset.mem_cons, hx]),
    h (v, et) (by simp [entries_node])⟩

theorem insert_tInv (t : Tree (ℤ × ℕ)) (v : Priority) (e : ℤ) (c : ℕ)
    (hinv : TInv t) (htime : TimeLt t c) : TInv (t.insert v (e, c)) := by
  induction t with
  | nil => simp [insert, TInv, entries, inorder]
  | node value et l r ihl ihr =>
    obtain ⟨h1, h2, h3, h4⟩ := hinv
    obtain ⟨htl, htr, hte⟩ := timeLt_node value et l r c htime
    by_cases hv : value ≤ v
    · rw [insert, if_pos hv]
      refine ⟨h1, ?_, h3, ihr (h4) htr⟩
      intro x hx
      rw [entries_insert] at hx
      rcases Multiset.mem_cons.mp hx with hx1 | hx2
      · subst hx1
        exact ⟨hv, fun _ => hte⟩
      · exact h2 x hx2
    · rw [insert, if_neg hv]
      refine ⟨?_, h2, ihl (h3) htl, h4⟩
      intro x hx
      rw [entries_insert] at hx
      rcases Multiset.mem_cons.mp hx with hx1 | hx2
      · subst hx1
        exact lt_of_not_le hv
      · exact h1 x hx2

theorem insert_timeLt (t : Tree (ℤ × ℕ)) (v : Priority) (e : ℤ) (c : ℕ)
    (htime : TimeLt t c) : TimeLt (t.insert v (e, c)) (c + 1) := by
  intro x hx
  rw [entries_insert] at hx
  rcases Multiset.mem_cons.mp hx with hx1 | hx2
  · subst hx1; exact Nat.lt_succ_self c
  · exact Nat.lt_succ_of_lt (htime x hx2)

theorem pop_max_tInv (t : Tree (ℤ × ℕ)) :
    ∀ v et t', TInv t → t.pop_max = some (v, et, t') → TInv t' := by
  induction t with
  | nil => intro v et t' _ h; simp [pop_max] at h
  | node value net l r ihl ihr =>
    intro v et t' hinv h
    obtain ⟨h1, h2, h3, h4⟩ := hinv
    cases hpr : r.pop_max with
    | none =>
      have hrnil : r = nil := (pop_max_eq_none_iff r).mp hpr
      subst hrnil
      simp [pop_max] at h
      obtain ⟨rfl, rfl, rfl⟩ := h
      exact h3
    | some x =>
      obtain ⟨rv, ret, r'⟩ := x
      simp [pop_max, hpr] at h
      obtain ⟨rfl, rfl, rfl⟩ := h
      refine ⟨h1, ?_, h3, ihr _ _ _ h4 hpr⟩
      intro x hx
      exact h2 x (pop_max_entries_subset r _ _ r' hpr x hx)

theorem pop_max_latest (t : Tree (ℤ × ℕ)) :
    ∀ v et t', TInv t → t.pop_max = some (v, et, t') →
      ∀ x ∈ entries t, x.1 ≤ v ∧ (x.1 = v → x.2.2 ≤ et.2) := by
  induction t with
  | nil => intro v et t' _ h; simp [pop_max] at h
  | node value net l r ihl ihr =>
    intro v et t' hinv h x hx
    obtain ⟨h1, h2, h3, h4⟩ := hinv
    rw [entries_node] at hx
    cases hpr : r.pop_max with
    | none =>
      have hrnil : r = nil := (pop_max_eq_none_iff r).mp hpr
      subst hrnil
      simp [pop_max] at h
      obtain ⟨rfl, rfl, rfl⟩ := h
      rcases Multiset.mem_add.mp hx with hx1 | hx2
      · exact ⟨le_of_lt (h1 x hx1), fun hq => absurd hq (ne_of_lt (h1 x hx1))⟩
      · rcases Multiset.mem_cons.mp hx2 with hx3 | hx4
        · subst hx3; exact ⟨le_refl _, fun _ => le_refl _⟩
        · simp [entries, inorder] at hx4
    | some y =>
      obtain ⟨rv, ret, r'⟩ := y
      simp [pop_max, hpr] at h
      obtain ⟨rfl, rfl, rfl⟩ := h
      have hmem := pop_max_mem_entries r _ _ r' hpr
      have hvle : value ≤ rv := (h2 _ hmem).1
      rcases Multiset.mem_add.mp hx with hx1 | hx2
      · have hlt : x.1 < value := h1 x hx1
        exact ⟨le_of_lt (lt_of_lt_of_le hlt hvle),
          fun hq => absurd (lt_of_lt_of_le hlt hvle) (by rw [hq]; exact lt_irrefl _)⟩
      · rcases Multiset.mem_cons.mp hx2 with hx3 | hx4
        · subst hx3
          refine ⟨hvle, fun hq => ?_⟩
          exact le_of_lt ((h2 _ hmem).2 hq.symm)
        · exact ihr _ _ _ h4 hpr x hx4

theorem runTimed_inv (ops : List TreeOp) :
    ∀ t c t' c', TInv t → TimeLt t c → runTimed t c ops = some (t', c') →
      TInv t' := by
  induction ops with
  | nil =>
    intro t c t' c' hinv htime h
    simp [runTimed] at h
    obtain ⟨rfl, rfl⟩ := h
    exact hinv
  | cons op rest ih =>
    intro t c t' c' hinv htime h
    cases op with
    | ins p e =>
      exact ih _ _ _ _ (insert_tInv t p e c hinv htime) (insert_timeLt t p e c htime) h
    | pop =>
      cases hp : t.pop_max with
      | none => simp [runTimed, hp] at h
      | some x =>
        obtain ⟨pv, pet, t''⟩ := x
        rw [runTimed, hp] at h
        refine ih _ _ _ _ (pop_max_tInv t _ _ _ hinv hp) ?_ h
        intro x hx
        exact htime x (pop_max_entries_subset t _ _ t'' hp x hx)

end Tree

/-- Claim C1: for every non-empty tree built by a sequence of insert
calls, `pop_max` returns an entry whose priority is the maximum priority
held in the tree, removes exactly that one entry from the multiset of
entries, and splices the removed node's left subtree into its parent's
right slot (equivalently, the new tree is `spliceMax` of the old, which
makes the left subtree the new root when the root is removed). -/
theorem claim_C1_pop_max_correct (ops : List (Priority × ℤ)) (t : Tree ℤ)
    (hbuild : Tree.build ops = t) (hne : t ≠ Tree.nil) :
    ∃ v e t', t.pop_max = some (v, e, t') ∧ v ∈ Tree.prios t ∧
      (∀ p ∈ Tree.prios t, p ≤ v) ∧
      Tree.entries t = (v, e) ::ₘ Tree.entries t' ∧ t' = Tree.spliceMax t := by
  obtain ⟨v, e, t', hp⟩ := Tree.pop_max_isSome t hne
  have hbst : Tree.IsBST t := hbuild ▸ Tree.build_isBST ops
  refine ⟨v, e, t', hp, ?_, ?_, ?_, ?_⟩
  · exact Multiset.mem_map_of_mem Prod.fst (Tree.pop_max_mem_entries t v e t' hp)
  · exact Tree.pop_max_is_max t v e t' hbst hp
  · exact Tree.pop_max_entries t v e t' hp
  · exact Tree.pop_max_spliceMax t v e t' hp

theorem claim_C1_pop_max_correct_witness :
    ∃ v e t', (Tree.build [(((1 : ℚ) : Priority), (0 : ℤ)), (((2 : ℚ) : Priority), 1)]).pop_max
        = some (v, e, t') ∧
      v ∈ Tree.prios (Tree.build [(((1 : ℚ) : Priority), (0 : ℤ)), (((2 : ℚ) : Priority), 1)]) ∧
      (∀ p ∈ Tree.prios (Tree.build [(((1 : ℚ) : Priority), (0 : ℤ)), (((2 : ℚ) : Priority), 1)]),
        p ≤ v) ∧
      Tree.entries (Tree.build [(((1 : ℚ) : Priority), (0 : ℤ)), (((2 : ℚ) : Priority), 1)])
        = (v, e) ::ₘ Tree.entries t' ∧
      t' = Tree.spliceMax
        (Tree.build [(((1 : ℚ) : Priority), (0 : ℤ)), (((2 : ℚ) : Priority), 1)]) :=
  claim_C1_pop_max_correct [(((1 : ℚ) : Priority), (0 : ℤ)), (((2 : ℚ) : Priority), 1)] _
    rfl (by decide)

/-- Claim C2: every tree reachable from the empty tree by a sequence of
insert and pop_max operations satisfies the binary-search-tree ordering
invariant (left subtree ≤ node priority ≤ right subtree); moreover a
value equal to the current node's priority descends right. -/
theorem claim_C2_bst_invariant (ops : List Tree.TreeOp) (t : Tree ℤ)
    (h : Tree.runOps Tree.nil ops = some t) :
    Tree.IsBST t ∧ ∀ (v : Priority) (e e' : ℤ) (l r : Tree ℤ),
      (Tree.node v e l r).insert v e' = Tree.node v e l (r.insert v e') := by
  constructor
  · exact Tree.runOps_isBST ops Tree.nil t trivial h
  · intro v e e' l r
    rw [Tree.insert, if_pos (le_refl v)]

theorem claim_C2_bst_invariant_witness :
    Tree.IsBST (Tree.node ((1 : ℚ) : Priority) (1 : ℤ) Tree.nil Tree.nil) ∧
      ∀ (v : Priority) (e e' : ℤ) (l r : Tree ℤ),
        (Tree.node v e l r).insert v e' = Tree.node v e l (r.insert v e') :=
  claim_C2_bst_invariant
    [Tree.TreeOp.ins ((2 : ℚ) : Priority) 0, Tree.TreeOp.ins ((1 : ℚ) : Priority) 1,
      Tree.TreeOp.pop]
    (Tree.node ((1 : ℚ) : Priority) (1 : ℤ) Tree.nil Tree.nil) (by decide)

/-- Claim C10: because a value equal to the current node's priority
descends right, among all entries sharing the current maximal priority
the one popped first is the most recently inserted one.  Formalised over
the instrumented run, whose payloads record insertion timestamps: for
every tree reachable by inserts and pops, the popped entry's priority
dominates every entry, and every entry of equal priority has an earlier
(≤) timestamp. -/
theorem claim_C10_lifo_among_ties (ops : List Tree.TreeOp) (t : Tree (ℤ × ℕ)) (c : ℕ)
    (hrun : Tree.runTimed Tree.nil 0 ops = some (t, c))
    (v : Priority) (et : ℤ × ℕ) (t' : Tree (ℤ × ℕ))
    (hpop : t.pop_max = some (v, et, t')) :
    ∀ x ∈ Tree.entries t, x.1 ≤ v ∧ (x.1 = v → x.2.2 ≤ et.2) := by
  have hinv : Tree.TInv t := by
    refine Tree.runTimed_inv ops Tree.nil 0 t c trivial ?_ hrun
    intro x hx
    simp [Tree.entries, Tree.inorder] at hx
  exact Tree.pop_max_latest t v et t' hinv hpop

theorem claim_C10_lifo_among_ties_witness :
    (((⊤ : Priority), ((5 : ℤ), (0 : ℕ))) : Priority × ℤ × ℕ).1 ≤ (⊤ : Priority) ∧
      (((⊤ : Priority), ((5 : ℤ), (0 : ℕ))) : Priority × ℤ × ℕ).2.2 ≤ 1 :=
  have h := claim_C10_lifo_among_ties
    [Tree.TreeOp.ins (⊤ : Priority) 5, Tree.TreeOp.ins (⊤ : Priority) 7]
    (Tree.node (⊤ : Priority) ((5 : ℤ), 0) Tree.nil
      (Tree.node (⊤ : Priority) ((7 : ℤ), 1) Tree.nil Tree.nil)) 2
    (by decide) ⊤ ((7 : ℤ), 1)
    (Tree.node (⊤ : Priority) ((5 : ℤ), 0) Tree.nil Tree.nil) (by decide)
    ((⊤ : Priority), ((5 : ℤ), (0 : ℕ))) (by decide)
  ⟨h.1, h.2 rfl⟩

/-- Python list indexing `l[i]`: a negative index wraps to `len(l) + i`;
an index outside the list raises `IndexError`, modelled by `none`. -/
def pyGet {β : Type} (l : List β) (i : ℤ) : Option β :=
  let j := if i < 0 then i + l.length else i
  if 0 ≤ j ∧ j < l.length then l.get? j.toNat else none

/-- Modelled from the spec: the Experience Buffer (`ExperienceHandler`,
imported by the store but not among the source files): an
insertion-ordered sequence of transitions { state, action, reward },
a marker set of terminal indices, and the configured capacity
(`max_len`).  States are modelled as rationals; `size` is the buffer
length. -/
structure ExperienceHandler where
  max_len : ℕ
  states : List ℚ
  actions : List ℤ
  rewards : List ℚ
  term_states : Finset ℤ
deriving DecidableEq

namespace ExperienceHandler

/-- Modelled from the spec: the buffer length (the `size` attribute read
by the store). -/
def size (h : ExperienceHandler) : ℕ := h.states.length

/-- Modelled from the spec: `add_experience` "appends to the sequence;
returns the newly assigned index"; per the comment in the source's
`PrioritizedExperienceHandler.add_experience`, the returned index is
`len(list)` after the append. -/
def add_experience (h : ExperienceHandler) (s : ℚ) (a : ℤ) (r : ℚ) :
    ExperienceHandler × ℤ :=
  let h' := { h with states := h.states ++ [s], actions := h.actions ++ [a],
                     rewards := h.rewards ++ [r] }
  (h', (h'.states.length : ℤ))

/-- Modelled from the spec: `add_terminal` "marks the current
end-of-sequence index as terminal". -/
def add_terminal (h : ExperienceHandler) : ExperienceHandler :=
  { h with term_states := insert ((h.size : ℤ) - 1) h.term_states }

/-- Modelled from the spec: `trim` "when length exceeds configured
capacity, discard oldest entries so length ≤ capacity; indices shift or
are invalidated". -/
def trim (h : ExperienceHandler) : ExperienceHandler :=
  let d := h.size - h.max_len
  { h with states := h.states.drop d, actions := h.actions.drop d,
           rewards := h.rewards.drop d,
           term_states := (h.term_states.filter (fun i => (d : ℤ) ≤ i)).image
             (fun i => i - (d : ℤ)) }

end ExperienceHandler

/-- The `PrioritizedExperienceHandler` of the source: the buffer
(superclass state) plus the priority tree.  The unused configuration
fields `num_actions`, `discount`, `dtype` and the unused `costList` are
omitted. -/
structure PrioritizedExperienceHandler where
  buffer : ExperienceHandler
  tree : Tree ℤ
deriving DecidableEq

/-- Result of `get_prioritized_experience`: `insufficient` is the
`(None, None, None, None, None, None)` early return; `batch` carries
`mb_states`, `mb_actions`, `mb_rewards`, `mb_states_tp1`, `mb_terminal`
and `mb_inds_poped`. -/
inductive BatchResult where
  | insufficient : BatchResult
  | batch (mb_states : List ℚ) (mb_actions : List ℤ) (mb_rewards : List ℚ)
      (mb_states_tp1 : List ℚ) (mb_terminal : List ℤ)
      (mb_inds_poped : List ℤ) : BatchResult
deriving DecidableEq

namespace PrioritizedExperienceHandler

/-- Source `add_experience`: delegate to the buffer; when the returned
index exceeds 1, insert `(np.inf, insert_ind - 2)` into the tree. -/
def add_experience (p : PrioritizedExperienceHandler) (s : ℚ) (a : ℤ) (r : ℚ) :
    PrioritizedExperienceHandler :=
  let bi := p.buffer.add_experience s a r
  if 1 < bi.2 then
    { buffer := bi.1, tree := p.tree.insert ⊤ (bi.2 - 2) }
  else
    { buffer := bi.1, tree := p.tree }

/-- Source `add_terminal`: delegate to the buffer, then insert
`(np.inf, self.size - 1)` into the tree. -/
def add_terminal (p : PrioritizedExperienceHandler) : PrioritizedExperienceHandler :=
  let buf := p.buffer.add_terminal
  { buffer := buf, tree := p.tree.insert ⊤ ((buf.size : ℤ) - 1) }

/-- The per-sample loop body of `get_prioritized_experience`, iterated
`mini_batch` times: pop the tree, record the popped index, read
`states[exp_ind]`; a terminal index yields flag 1 and keeps the
zero-filled next-state, otherwise flag 0 and `states[exp_ind + 1]`; then
read `actions[exp_ind]` and `rewards[exp_ind]`.  Returns the parallel
lists plus the tree left after the pops; `none` models an uncaught
exception (popping an empty tree, or an `IndexError`). -/
def getLoop (buf : ExperienceHandler) : Tree ℤ → ℕ →
    Option (List ℚ × List ℤ × List ℚ × List ℚ × List ℤ × List ℤ × Tree ℤ)
  | t, 0 => some ([], [], [], [], [], [], t)
  | t, n + 1 =>
    match t.pop_max with
    | none => none
    | some (_td_error, exp_ind, t') =>
      match pyGet buf.states exp_ind with
      | none => none
      | some s =>
        match (if exp_ind ∈ buf.term_states then some ((1 : ℤ), (0 : ℚ))
               else match pyGet buf.states (exp_ind + 1) with
                    | none => none
                    | some s1 => some ((0 : ℤ), s1)) with
        | none => none
        | some (term, tp1) =>
          match pyGet buf.actions exp_ind with
          | none => none
          | some a =>
            match pyGet buf.rewards exp_ind with
            | none => none
            | some r =>
              match getLoop buf t' n with
              | none => none
              | some (ss, acts, rs, tps, terms, inds, tfin) =>
                some (s :: ss, a :: acts, r :: rs, tp1 :: tps, term :: terms,
                  exp_ind :: inds, tfin)

/-- Source `get_prioritized_experience`: if `size <= mini_batch` return
the all-`None` tuple (and touch nothing); otherwise pop the tree
`mini_batch` times assembling the batch. -/
def get_prioritized_experience (p : PrioritizedExperienceHandler) (mini_batch : ℕ) :
    Option (BatchResult × PrioritizedExperienceHandler) :=
  if p.buffer.size ≤ mini_batch then
    some (BatchResult.insufficient, p)
  else
    match getLoop p.buffer p.tree mini_batch with
    | none => none
    | some (ss, acts, rs, tps, terms, inds, tfin) =>
      some (BatchResult.batch ss acts rs tps terms inds, { p with tree := tfin })

/-- Source `set_new_td_errors`: insert each `(td_error, ind)` pair into
the tree. -/
def set_new_td_errors (p : PrioritizedExperienceHandler)
    (td_errors : List Priority) (state_inds : List ℤ) : PrioritizedExperienceHandler :=
  { p with tree := (td_errors.zip state_inds).foldl (fun t pr => t.insert pr.1 pr.2) p.tree }

/-- Source `trim`: delegates to the buffer only; the tree keeps all its
entries. -/
def trim (p : PrioritizedExperienceHandler) : PrioritizedExperienceHandler :=
  { p with buffer := p.buffer.trim }

/-- The multiset of buffer indices currently registered in a tree. -/
def treeInds (t : Tree ℤ) : Multiset ℤ := (Tree.entries t).map (fun x => x.2)

theorem getLoop_spec (buf : ExperienceHandler) :
    ∀ (n : ℕ) (t : Tree ℤ) ss acts rs tps terms inds tfin,
      getLoop buf t n = some (ss, acts, rs, tps, terms, inds, tfin) →
      inds.length = n ∧
      treeInds t = ↑inds + treeInds tfin ∧
      terms = inds.map (fun i => if i ∈ buf.term_states then (1 : ℤ) else 0) ∧
      List.Forall₂ (fun i tp => if i ∈ buf.term_states then tp = (0 : ℚ)
        else pyGet buf.states (i + 1) = some tp) inds tps := by
  intro n
  induction n with
  | zero =>
    intro t ss acts rs tps terms inds tfin h
    simp [getLoop] at h
    obtain ⟨rfl, rfl, rfl, rfl, rfl, rfl, rfl⟩ := h
    simp [List.Forall₂.nil]
  | succ n ih =>
    intro t ss acts rs tps terms inds tfin h
    rw [getLoop] at h
    cases hp : t.pop_max with
    | none => rw [hp] at h; dsimp only at h; exact Option.noConfusion h
    | some x =>
      obtain ⟨td, exp_ind, t'⟩ := x
      rw [hp] at h
      dsimp only at h
      cases hs : pyGet buf.states exp_ind with
      | none => rw [hs] at h; dsimp only at h; exact Option.noConfusion h
      | some s =>
        rw [hs] at h
        dsimp only at h
        by_cases hmem : exp_ind ∈ buf.term_states
        · rw [if_pos hmem] at h
          dsimp only at h
          cases ha : pyGet buf.actions exp_ind with
          | none => rw [ha] at h; dsimp only at h; exact Option.noConfusion h
          | some a =>
            rw [ha] at h
            dsimp only at h
            cases hr : pyGet buf.rewards exp_ind with
            | none => rw [hr] at h; dsimp only at h; exact Option.noConfusion h
            | some r =>
              rw [hr] at h
              dsimp only at h
              cases hrec : getLoop buf t' n with
              | none => rw [hrec] at h; dsimp only at h; exact Option.noConfusion h
              | some y =>
                obtain ⟨ss', acts', rs', tps', terms', inds', tfin'⟩ := y
                rw [hrec] at h
                dsimp only at h
                simp only [Option.some.injEq, Prod.mk.injEq] at h
                obtain ⟨rfl, rfl, rfl, rfl, rfl, rfl, rfl⟩ := h
                obtain ⟨hlen, hinds, hterms, hfa⟩ :=
                  ih t' ss' acts' rs' tps' terms' inds' tfin' hrec
                refine ⟨by simp [hlen], ?_, ?_, ?_⟩
                · have he := Tree.pop_max_entries t td exp_ind t' hp
                  rw [treeInds, he]
                  simp only [Multiset.map_cons]
                  rw [← treeInds, hinds, ← Multiset.cons_add, Multiset.cons_coe]
                · simp [hterms, if_pos hmem]
                · exact List.Forall₂.cons (by rw [if_pos hmem]) hfa
        · rw [if_neg hmem] at h
          cases hs1 : pyGet buf.states (exp_ind + 1) with
          | none => rw [hs1] at h; dsimp only at h; exact Option.noConfusion h
          | some s1 =>
            rw [hs1] at h
            dsimp only at h
            cases ha : pyGet buf.actions exp_ind with
            | none => rw [ha] at h; dsimp only at h; exact Option.noConfusion h
            | some a =>
              rw [ha] at h
              dsimp only at h
              cases hr : pyGet buf.rewards exp_ind with
              | none => rw [hr] at h; dsimp only at h; exact Option.noConfusion h
              | some r =>
                rw [hr] at h
                dsimp only at h
                cases hrec : getLoop buf t' n with
                | none => rw [hrec] at h; dsimp only at h; exact Option.noConfusion h
                | some y =>
                  obtain ⟨ss', acts', rs', tps', terms', inds', tfin'⟩ := y
                  rw [hrec] at h
                  dsimp only at h
                  simp only [Option.some.injEq, Prod.mk.injEq] at h
                  obtain ⟨rfl, rfl, rfl, rfl, rfl, rfl, rfl⟩ := h
                  obtain ⟨hlen, hinds, hterms, hfa⟩ :=
                    ih t' ss' acts' rs' tps' terms' inds' tfin' hrec
                  refine ⟨by simp [hlen], ?_, ?_, ?_⟩
                  · have he := Tree.pop_max_entries t td exp_ind t' hp
                    rw [treeInds, he]
                    simp only [Multiset.map_cons]
                    rw [← treeInds, hinds, ← Multiset.cons_add, Multiset.cons_coe]
                  · simp [hterms, if_neg hmem]
                  · exact List.Forall₂.cons (by rw [if_neg hmem]; exact hs1) hfa

end PrioritizedExperienceHandler

/-- Claim C3: on `add_experience`, when the index returned by the buffer
append exceeds 1, exactly one tree entry `(np.inf, returned index - 2)`
is inserted, and none otherwise; on `add_terminal`, exactly one tree
entry `(np.inf, buffer size - 1)` is inserted. -/
theorem claim_C3_tree_registration (p : PrioritizedExperienceHandler)
    (s : ℚ) (a : ℤ) (r : ℚ) :
    (Tree.entries (p.add_experience s a r).tree =
      if 1 < (p.buffer.add_experience s a r).2 then
        ((⊤ : Priority), (p.buffer.add_experience s a r).2 - 2) ::ₘ Tree.entries p.tree
      else Tree.entries p.tree) ∧
    Tree.entries p.add_terminal.tree =
      ((⊤ : Priority), (p.buffer.size : ℤ) - 1) ::ₘ Tree.entries p.tree := by
  constructor
  · by_cases h : 1 < (p.buffer.add_experience s a r).2
    · rw [if_pos h]
      simp only [PrioritizedExperienceHandler.add_experience, if_pos h]
      exact Tree.entries_insert p.tree ⊤ _
    · rw [if_neg h]
      simp only [PrioritizedExperienceHandler.add_experience, if_neg h]
  · simp only [PrioritizedExperienceHandler.add_terminal]
    rw [Tree.entries_insert]
    rfl

/-- Claim C7: `get_prioritized_experience` returns the all-`None`
insufficient-data result (a normal return, not an exception) exactly
when the buffer size is at most the requested mini-batch size. -/
theorem claim_C7_insufficient_iff (p : PrioritizedExperienceHandler) (mini_batch : ℕ) :
    p.get_prioritized_experience mini_batch = some (BatchResult.insufficient, p) ↔
      p.buffer.size ≤ mini_batch := by
  unfold PrioritizedExperienceHandler.get_prioritized_experience
  by_cases h : p.buffer.size ≤ mini_batch
  · simp [h]
  · rw [if_neg h]
    constructor
    · intro hc
      cases hg : PrioritizedExperienceHandler.getLoop p.buffer p.tree mini_batch with
      | none => rw [hg] at hc; exact absurd hc (by simp)
      | some x =>
        obtain ⟨ss, acts, rs, tps, terms, inds, tfin⟩ := x
        rw [hg] at hc
        simp at hc
    · intro hc
      exact absurd hc h

/-- Claim C9: when the buffer size is at most the mini-batch size,
`get_prioritized_experience` returns the 6-tuple of `None`s (modelled by
`BatchResult.insufficient`) together with the completely unchanged
store: nothing is popped and neither the tree nor the buffer is
mutated. -/
theorem claim_C9_insufficient_atomic (p : PrioritizedExperienceHandler)
    (mini_batch : ℕ) (h : p.buffer.size ≤ mini_batch) :
    p.get_prioritized_experience mini_batch = some (BatchResult.insufficient, p) := by
  unfold PrioritizedExperienceHandler.get_prioritized_experience
  rw [if_pos h]

/-- Claim C5, amended: the claim as frozen fails because the same buffer
index can be registered in the tree twice (an `add_terminal` followed by
a further `add_experience` registers the terminal index again), so a
batch can return the same index twice.  Amended with the hypothesis that
the registered indices are pairwise distinct: then a successful batch of
size k returns exactly k distinct indices, each popped exactly once, the
popped indices are removed from the tree, and hence cannot be returned
by a later call until `set_new_td_errors` reinserts them. -/
theorem claim_C5_distinct_batch (p : PrioritizedExperienceHandler) (k : ℕ)
    (ss : List ℚ) (acts : List ℤ) (rs tps : List ℚ) (terms inds : List ℤ)
    (p' : PrioritizedExperienceHandler)
    (h : p.get_prioritized_experience k =
      some (BatchResult.batch ss acts rs tps terms inds, p'))
    (hnodup : (PrioritizedExperienceHandler.treeInds p.tree).Nodup) :
    inds.length = k ∧ inds.Nodup ∧
      PrioritizedExperienceHandler.treeInds p.tree =
        ↑inds + PrioritizedExperienceHandler.treeInds p'.tree ∧
      ∀ i ∈ inds, i ∉ PrioritizedExperienceHandler.treeInds p'.tree := by
  unfold PrioritizedExperienceHandler.get_prioritized_experience at h
  by_cases hsz : p.buffer.size ≤ k
  · rw [if_pos hsz] at h
    simp at h
  · rw [if_neg hsz] at h
    cases hg : PrioritizedExperienceHandler.getLoop p.buffer p.tree k with
    | none => rw [hg] at h; exact absurd h (by simp)
    | some y =>
      obtain ⟨ss0, acts0, rs0, tps0, terms0, inds0, tfin⟩ := y
      rw [hg] at h
      simp only [Option.some.injEq, Prod.mk.injEq, BatchResult.batch.injEq] at h
      obtain ⟨⟨rfl, rfl, rfl, rfl, rfl, rfl⟩, rfl⟩ := h
      obtain ⟨hlen, hinds, hterms, hfa⟩ :=
        PrioritizedExperienceHandler.getLoop_spec p.buffer k p.tree
          ss0 acts0 rs0 tps0 terms0 inds0 tfin hg
      rw [hinds] at hnodup
      rw [Multiset.nodup_add] at hnodup
      obtain ⟨hn1, hn2, hdisj⟩ := hnodup
      refine ⟨hlen, Multiset.coe_nodup.mp hn1, hinds, ?_⟩
      intro i hi
      exact Multiset.disjoint_left.mp hdisj (Multiset.mem_coe.mpr hi)

theorem claim_C5_distinct_batch_witness :
    ([(1 : ℤ), 0] : List ℤ).length = 2 ∧ ([(1 : ℤ), 0] : List ℤ).Nodup ∧
      PrioritizedExperienceHandler.treeInds
          (Tree.node (⊤ : Priority) (0 : ℤ) Tree.nil
            (Tree.node (⊤ : Priority) (1 : ℤ) Tree.nil Tree.nil)) =
        ↑([(1 : ℤ), 0] : List ℤ) + PrioritizedExperienceHandler.treeInds Tree.nil ∧
      ∀ i ∈ ([(1 : ℤ), 0] : List ℤ),
        i ∉ PrioritizedExperienceHandler.treeInds Tree.nil :=
  claim_C5_distinct_batch
    { buffer := { max_len := 10, states := [(10 : ℚ), 11, 12], actions := [0, 0, 0],
                  rewards := [0, 0, 0], term_states := (∅ : Finset ℤ) },
      tree := Tree.node (⊤ : Priority) (0 : ℤ) Tree.nil
        (Tree.node (⊤ : Priority) (1 : ℤ) Tree.nil Tree.nil) }
    2 [11, 10] [0, 0] [0, 0] [12, 11] [0, 0] [1, 0]
    { buffer := { max_len := 10, states := [(10 : ℚ), 11, 12], actions := [0, 0, 0],
                  rewards := [0, 0, 0], term_states := (∅ : Finset ℤ) },
      tree := Tree.nil }
    (by decide) (by decide)

/-- Store reached by three `add_experience` calls, one `add_terminal`,
and one further `add_experience`: the terminal index 2 is registered in
the tree twice (once by `add_terminal`, once by the following append),
both times with priority infinity. -/
def emptyStore (cap : ℕ) : PrioritizedExperienceHandler :=
  { buffer := { max_len := cap, states := [], actions := [], rewards := [],
                term_states := (∅ : Finset ℤ) },
    tree := Tree.nil }

def c5Store : PrioritizedExperienceHandler :=
  ((((((emptyStore 10).add_experience 10 0 0).add_experience 11 0 0
     ).add_experience 12 0 0).add_terminal).add_experience 13 0 0)

theorem claim_C5_counterexample :
    c5Store.get_prioritized_experience 2 =
      some (BatchResult.batch [12, 12] [0, 0] [0, 0] [0, 0] [1, 1] [2, 2],
        { buffer := c5Store.buffer,
          tree := Tree.node (⊤ : Priority) (0 : ℤ) Tree.nil
            (Tree.node (⊤ : Priority) (1 : ℤ) Tree.nil Tree.nil) }) ∧
      ¬ ([(2 : ℤ), 2] : List ℤ).Nodup := by
  constructor
  · decide
  · decide

/-- Claim C6: in every successful batch, a position whose popped buffer
index is marked terminal carries terminal flag 1 and the zero-filled
next-state; a position whose index is not terminal carries flag 0 and
the next-state read from the buffer at index + 1. -/
theorem claim_C6_terminal_handling (p : PrioritizedExperienceHandler) (k : ℕ)
    (ss : List ℚ) (acts : List ℤ) (rs tps : List ℚ) (terms inds : List ℤ)
    (p' : PrioritizedExperienceHandler)
    (h : p.get_prioritized_experience k =
      some (BatchResult.batch ss acts rs tps terms inds, p')) :
    terms = inds.map (fun i => if i ∈ p.buffer.term_states then (1 : ℤ) else 0) ∧
      List.Forall₂ (fun i tp => if i ∈ p.buffer.term_states then tp = (0 : ℚ)
        else pyGet p.buffer.states (i + 1) = some tp) inds tps := by
  unfold PrioritizedExperienceHandler.get_prioritized_experience at h
  by_cases hsz : p.buffer.size ≤ k
  · rw [if_pos hsz] at h
    simp at h
  · rw [if_neg hsz] at h
    cases hg : PrioritizedExperienceHandler.getLoop p.buffer p.tree k with
    | none => rw [hg] at h; exact absurd h (by simp)
    | some y =>
      obtain ⟨ss0, acts0, rs0, tps0, terms0, inds0, tfin⟩ := y
      rw [hg] at h
      simp only [Option.some.injEq, Prod.mk.injEq, BatchResult.batch.injEq] at h
      obtain ⟨⟨rfl, rfl, rfl, rfl, rfl, rfl⟩, rfl⟩ := h
      obtain ⟨hlen, hinds, hterms, hfa⟩ :=
        PrioritizedExperienceHandler.getLoop_spec p.buffer k p.tree
          ss0 acts0 rs0 tps0 terms0 inds0 tfin hg
      exact ⟨hterms, hfa⟩

/-- Store used to exercise the terminal-handling theorem: one terminal
index 0 registered, one non-terminal entry would read `states[1]`. -/
def c6Store : PrioritizedExperienceHandler :=
  { buffer := { max_len := 10, states := [(10 : ℚ), 11], actions := [0, 0],
                rewards := [0, 0], term_states := ({0} : Finset ℤ) },
    tree := Tree.node ((5 : ℚ) : Priority) (0 : ℤ) Tree.nil Tree.nil }

theorem claim_C6_terminal_handling_witness :
    ([1] : List ℤ) = ([0] : List ℤ).map
        (fun i => if i ∈ c6Store.buffer.term_states then (1 : ℤ) else 0) ∧
      List.Forall₂ (fun i tp => if i ∈ c6Store.buffer.term_states then tp = (0 : ℚ)
        else pyGet c6Store.buffer.states (i + 1) = some tp) [(0 : ℤ)] [(0 : ℚ)] :=
  claim_C6_terminal_handling c6Store 1 [10] [0] [0] [0] [1] [0]
    { buffer := c6Store.buffer, tree := Tree.nil } (by decide)

/-- Store with `max_len = 2`, filled with four transitions and trimmed:
the buffer keeps only 2 entries while the tree still registers buffer
index 2, which is now out of bounds. -/
def c4Store : PrioritizedExperienceHandler :=
  ((((((emptyStore 2).add_experience 10 0 0).add_experience 11 0 0
     ).add_experience 12 0 0).add_experience 13 0 0).trim)

/-- Claim C4 fails on the code: `get_prioritized_experience` performs no
staleness check: it pops the stale entry (priority ∞, index 2) on a
trimmed buffer of length 2 and evaluates `states[2]`, raising
`IndexError` (modelled by `none`) instead of silently skipping the
entry. -/
theorem claim_C4_stale_index_crash :
    c4Store.get_prioritized_experience 1 = none := by decide

theorem claim_C9_insufficient_atomic_witness :
    ({ buffer := { max_len := 5, states := [(3 : ℚ)], actions := [(0 : ℤ)],
                   rewards := [(0 : ℚ)], term_states := (∅ : Finset ℤ) },
       tree := Tree.nil } : PrioritizedExperienceHandler).get_prioritized_experience 1 =
      some (BatchResult.insufficient,
        { buffer := { max_len := 5, states := [(3 : ℚ)], actions := [(0 : ℤ)],
                      rewards := [(0 : ℚ)], term_states := (∅ : Finset ℤ) },
          tree := Tree.nil }) :=
  claim_C9_insufficient_atomic _ 1 (by decide)

theorem pyGet_eq_some {β : Type} (l : List β) (i : ℤ) (h0 : 0 ≤ i)
    (hl : i < (l.length : ℤ)) : ∃ x, pyGet l i = some x := by
  have hnat : i.toNat < l.length := by omega
  refine ⟨l.get ⟨i.toNat, hnat⟩, ?_⟩
  simp only [pyGet]
  rw [if_neg (not_lt.mpr h0), if_pos (⟨h0, hl⟩ : 0 ≤ i ∧ i < (l.length : ℤ))]
  exact List.get?_eq_get hnat

/-- Claim C8, amended: the round trip `set_new_td_errors([p], [i])` then
`get_prioritized_experience(1)` returns exactly `[i]` as the popped
index list, for every priority and every buffer index `i` that is valid
for batch assembly — within bounds and either marked terminal or with a
successor entry (the claim as frozen fails for the last non-terminal
index, whose successor read is out of bounds).  The buffer is assumed
well-formed (action and reward sequences aligned with the states), which
always holds for buffers built by appends. -/
theorem claim_C8_roundtrip_amended (p : PrioritizedExperienceHandler)
    (pr : Priority) (i : ℤ)
    (htree : p.tree = Tree.nil)
    (hsize : 1 < p.buffer.size)
    (hact : p.buffer.actions.length = p.buffer.states.length)
    (hrew : p.buffer.rewards.length = p.buffer.states.length)
    (h0 : 0 ≤ i) (hi : i < (p.buffer.states.length : ℤ))
    (hvalid : i ∈ p.buffer.term_states ∨ i + 1 < (p.buffer.states.length : ℤ)) :
    ∃ ss acts rs tps terms p',
      (p.set_new_td_errors [pr] [i]).get_prioritized_experience 1 =
        some (BatchResult.batch ss acts rs tps terms [i], p') := by
  obtain ⟨s, hs⟩ := pyGet_eq_some p.buffer.states i h0 hi
  obtain ⟨a, ha⟩ := pyGet_eq_some p.buffer.actions i h0 (by rw [hact]; exact hi)
  obtain ⟨r, hr⟩ := pyGet_eq_some p.buffer.rewards i h0 (by rw [hrew]; exact hi)
  have hq1 : (p.set_new_td_errors [pr] [i]).buffer = p.buffer := rfl
  have hq2 : (p.set_new_td_errors [pr] [i]).tree = Tree.node pr i Tree.nil Tree.nil := by
    have hstep : (p.set_new_td_errors [pr] [i]).tree = p.tree.insert pr i := rfl
    rw [hstep, htree]
    rfl
  by_cases hmem : i ∈ p.buffer.term_states
  · have hloop : PrioritizedExperienceHandler.getLoop p.buffer
        (Tree.node pr i Tree.nil Tree.nil) 1 =
        some ([s], [a], [r], [0], [1], [i], Tree.nil) := by
      simp only [PrioritizedExperienceHandler.getLoop, Tree.pop_max, hs,
        if_pos hmem, ha, hr]
    rw [PrioritizedExperienceHandler.get_prioritized_experience, hq1, hq2,
      if_neg (not_le.mpr hsize), hloop]
    exact ⟨[s], [a], [r], [0], [1], _, rfl⟩
  · rcases hvalid with hmem2 | hsucc
    · exact absurd hmem2 hmem
    obtain ⟨s1, hs1⟩ := pyGet_eq_some p.buffer.states (i + 1) (by omega) hsucc
    have hloop : PrioritizedExperienceHandler.getLoop p.buffer
        (Tree.node pr i Tree.nil Tree.nil) 1 =
        some ([s], [a], [r], [s1], [0], [i], Tree.nil) := by
      simp only [PrioritizedExperienceHandler.getLoop, Tree.pop_max, hs,
        if_neg hmem, hs1, ha, hr]
    rw [PrioritizedExperienceHandler.get_prioritized_experience, hq1, hq2,
      if_neg (not_le.mpr hsize), hloop]
    exact ⟨[s], [a], [r], [s1], [0], _, rfl⟩

/-- Store with an empty tree and two non-terminal buffered transitions,
used for the C8 counterexample (index 1 has no successor entry) and the
round-trip witness (index 0 does). -/
def c8Store : PrioritizedExperienceHandler :=
  { buffer := { max_len := 10, states := [(10 : ℚ), 11], actions := [0, 0],
                rewards := [0, 0], term_states := (∅ : Finset ℤ) },
    tree := Tree.nil }

theorem claim_C8_counterexample :
    (c8Store.set_new_td_errors [((5 : ℚ) : Priority)] [(1 : ℤ)]
      ).get_prioritized_experience 1 = none := by decide

theorem claim_C8_roundtrip_amended_witness :
    ∃ ss acts rs tps terms p',
      (c8Store.set_new_td_errors [((5 : ℚ) : Priority)] [(0 : ℤ)]
        ).get_prioritized_experience 1 =
        some (BatchResult.batch ss acts rs tps terms [0], p') :=
  claim_C8_roundtrip_amended c8Store ((5 : ℚ) : Priority) 0 rfl (by decide) rfl rfl
    (by decide) (by decide) (Or.inr (by decide))

end LearningALE
